import Mathlib

/-!
# Fin-Tracker: verification of the adaptive category-classification engine

A shallow embedding, in Lean 4, of the core of the Fin-Tracker repository:

* `src/app/classifier.py` — text normalization (`normalize_text`) and
  keyword/alias prediction (`predict_category`);
* `src/app/taxonomy.py` — the static category/subcategory/keyword taxonomy;
* `src/app/db.py` — the persistent tables (expenses, pending expenses,
  feedback, merchant aliases) modelled as a pure record `Db`, with the
  row-level operations (`add_expense`, `create_pending_expense`,
  `get_pending`, `finalize_pending`, `record_feedback`,
  `get_alias_subcategory`, `undo_last_by_user`) as pure state transformers;
* `src/app/bot.py` — the message-processing handlers
  (`process_expense_text`, `on_category_chosen`, the `/undo` command) as a
  step relation `Step` on `Db`.

Python strings are modelled as `List Char`; `str.lower` is modelled
character-wise on the ASCII and Cyrillic alphabets the program works with;
Python/SQLite numbers (floats, REAL columns) are modelled as `ℚ`, with
`round(x, 2)` modelled as exact half-even rounding of `100 * x`.
-/

namespace FinTrack

attribute [local semireducible] Rat.mul Rat.inv Rat.add Rat.sub Rat.ofScientific

/-- Convert a string literal to the `List Char` representation used throughout. -/
def chars (s : String) : List Char := s.data

/-! ## Characters: whitespace, the regex character class, lowering -/

/-- The whitespace characters recognised by Python's `str.strip` / regex `\s`
(ASCII part, which is all the program ever sees). -/
def isSpaceChar (c : Char) : Bool :=
  c == ' ' || c == '\t' || c == '\n' || c == '\r' || c == Char.ofNat 11 || c == Char.ofNat 12

/-- Character-wise model of `str.lower` for the alphabets the classifier
handles: ASCII `A`–`Z` and Cyrillic `А`–`Я` (plus `Ё`). Other characters are
left unchanged. -/
def toLowerChar (c : Char) : Char :=
  if 65 ≤ c.toNat ∧ c.toNat ≤ 90 then Char.ofNat (c.toNat + 32)
  else if 1040 ≤ c.toNat ∧ c.toNat ≤ 1071 then Char.ofNat (c.toNat + 32)
  else if c.toNat = 1025 then Char.ofNat 1105
  else c

/-- The character class kept by `re.sub(r"[^a-zа-я0-9\s]", " ", ·, flags=IGNORECASE)`:
ASCII letters (both cases, because of `IGNORECASE`), digits, Cyrillic а–я/А–Я,
and whitespace. -/
def isAllowedChar (c : Char) : Bool :=
  (97 ≤ c.toNat && c.toNat ≤ 122) || (48 ≤ c.toNat && c.toNat ≤ 57) ||
    (1072 ≤ c.toNat && c.toNat ≤ 1103) ||
    (65 ≤ c.toNat && c.toNat ≤ 90) || (1040 ≤ c.toNat && c.toNat ≤ 1071) ||
    isSpaceChar c

/-- One character of the `re.sub` in `normalize_text`: characters outside the
class are replaced by a space (the regex substitutes each offending character
separately, so the substitution is character-wise). -/
def cleanChar (c : Char) : Char := if isAllowedChar c then c else ' '

/-- Python `str.strip`: drop leading and trailing whitespace. -/
def stripList (l : List Char) : List Char :=
  (l.dropWhile isSpaceChar).rdropWhile isSpaceChar

/-- `re.sub(r"\s+", " ", ·)`: every maximal run of whitespace characters is
replaced by a single space. -/
def collapseWS : List Char → List Char
  | [] => []
  | [c] => [if isSpaceChar c then ' ' else c]
  | c :: d :: rest =>
    if isSpaceChar c && isSpaceChar d then collapseWS (d :: rest)
    else (if isSpaceChar c then ' ' else c) :: collapseWS (d :: rest)

/-- `normalize_text` from `src/app/classifier.py`:
lowercase and strip, replace characters outside the supported alphabets by
spaces, collapse whitespace runs, strip again. -/
def normalize_text (text : List Char) : List Char :=
  stripList (collapseWS ((stripList (text.map toLowerChar)).map cleanChar))

/-! ## Taxonomy (`src/app/taxonomy.py`) -/

/-- `SubcategoryDef` from `src/app/taxonomy.py`. -/
structure SubcategoryDef where
  key : List Char
  label : List Char
  category : List Char
  keywords : List (List Char)
deriving DecidableEq, Inhabited

/-- The `SUBCATEGORIES` tuple, in its declaration order. -/
def SUBCATEGORIES : List SubcategoryDef :=
  [ ⟨chars "food_out", chars "Еда вне дома", chars "food",
      [chars "кофе", chars "капучино", chars "латте", chars "чай", chars "обед",
       chars "ужин", chars "завтрак", chars "кафе", chars "ресторан",
       chars "столовая", chars "фастфуд", chars "пицца", chars "бургер",
       chars "суши", chars "шаурма"]⟩,
    ⟨chars "food_groceries", chars "Продукты", chars "food",
      [chars "продукты", chars "магазин", chars "супермаркет", chars "гипермаркет",
       chars "еда домой", chars "овощи", chars "фрукты", chars "молоко",
       chars "хлеб", chars "мясо", chars "крупа"]⟩,
    ⟨chars "transport_taxi", chars "Такси", chars "transport",
      [chars "такси", chars "поездка", chars "трансфер"]⟩,
    ⟨chars "transport_public", chars "Общественный транспорт", chars "transport",
      [chars "метро", chars "автобус", chars "трамвай", chars "электричка",
       chars "поезд", chars "проезд"]⟩,
    ⟨chars "transport_car", chars "Авто расходы", chars "transport",
      [chars "бензин", chars "топливо", chars "заправка", chars "парковка",
       chars "шиномонтаж", chars "масло"]⟩,
    ⟨chars "home_rent", chars "Жилье и аренда", chars "home",
      [chars "аренда", chars "ипотека", chars "квартира", chars "жилье"]⟩,
    ⟨chars "home_utilities", chars "Коммунальные", chars "home",
      [chars "жкх", chars "коммуналка", chars "электричество", chars "вода",
       chars "газ", chars "интернет"]⟩,
    ⟨chars "health_medicine", chars "Лекарства", chars "health",
      [chars "аптека", chars "лекарства", chars "таблетки", chars "витамины"]⟩,
    ⟨chars "health_doctors", chars "Врачи и анализы", chars "health",
      [chars "врач", chars "клиника", chars "анализы", chars "стоматолог",
       chars "мрт", chars "узи"]⟩,
    ⟨chars "fun_events", chars "Развлечения", chars "fun",
      [chars "кино", chars "театр", chars "концерт", chars "бар", chars "клуб",
       chars "игры"]⟩,
    ⟨chars "shopping_clothes", chars "Одежда и обувь", chars "shopping",
      [chars "одежда", chars "обувь", chars "куртка", chars "джинсы",
       chars "кроссовки"]⟩,
    ⟨chars "shopping_other", chars "Покупки прочее", chars "shopping",
      [chars "покупка", chars "товар", chars "заказ"]⟩,
    ⟨chars "subscriptions_digital", chars "Цифровые подписки", chars "subscriptions",
      [chars "подписка", chars "премиум", chars "музыка", chars "видео",
       chars "облако"]⟩ ]

/-- The `SUBCATEGORY_TO_CATEGORY` dict, as a lookup into the taxonomy
(keys in `SUBCATEGORIES` are unique, so first-match lookup is the dict). -/
def SUBCATEGORY_TO_CATEGORY (key : List Char) : Option (List Char) :=
  (SUBCATEGORIES.find? (fun s => s.key == key)).map (fun s => s.category)

/-- The `BASE_CATEGORIES` set from `src/app/bot.py`. -/
def BASE_CATEGORIES : List (List Char) :=
  [chars "food", chars "transport", chars "home", chars "health",
   chars "fun", chars "shopping", chars "subscriptions", chars "other"]

/-! ## Classifier (`src/app/classifier.py`) -/

/-- The `Prediction` dataclass. -/
structure Prediction where
  category : List Char
  subcategory : List Char
  confidence : ℚ
  reason : List Char
deriving DecidableEq

/-- Round to the nearest integer, ties to even — the rounding used by
Python's builtin `round`. -/
def roundHalfEven (x : ℚ) : ℤ :=
  if x - ⌊x⌋ < 1/2 then ⌊x⌋
  else if 1/2 < x - ⌊x⌋ then ⌊x⌋ + 1
  else if ⌊x⌋ % 2 = 0 then ⌊x⌋ else ⌊x⌋ + 1

/-- Python's `round(x, 2)`. -/
def round2 (x : ℚ) : ℚ := (roundHalfEven (x * 100) : ℚ) / 100

/-- The keyword score one subcategory accumulates on a normalized note:
`+1.0` for every keyword occurring as a substring, and a further `+0.35`
when the note equals the keyword or starts with the keyword plus a space. -/
def subScore (normalized : List Char) (s : SubcategoryDef) : ℚ :=
  s.keywords.foldl
    (fun acc w =>
      if w <:+: normalized then
        acc + 1 + (if normalized = w ∨ w ++ [' '] <+: normalized then 35/100 else 0)
      else acc)
    0

/-- The `score` dict of `predict_category`, as an association list in
insertion order. The dict gains a key the first time one of that
subcategory's keywords matches, and subcategories are scanned in taxonomy
order, so the insertion order is the taxonomy's declaration order restricted
to subcategories with a nonzero score. -/
def scoreEntries (normalized : List Char) : List (List Char × ℚ) :=
  (SUBCATEGORIES.map (fun s => (s.key, subScore normalized s))).filter
    (fun p => decide (p.2 ≠ 0))

/-- The ordering used by `sorted(score.items(), key=lambda x: x[1], reverse=True)`:
`a` may be placed before `b` iff `b`'s score does not exceed `a`'s. A stable
insertion sort with this relation is Python's stable descending sort. -/
def scoreGE (a b : List Char × ℚ) : Prop := b.2 ≤ a.2

instance : DecidableRel scoreGE := fun a b => inferInstanceAs (Decidable (b.2 ≤ a.2))

instance : IsTotal (List Char × ℚ) scoreGE := ⟨fun a b => le_total b.2 a.2⟩

instance : IsTrans (List Char × ℚ) scoreGE := ⟨fun _ _ _ h1 h2 => le_trans h2 h1⟩

/-- `ranked[1][1] if len(ranked) > 1 else 0.0`: the second-place score, `0`
when only one candidate was ranked. The argument is the tail of the ranked
list. -/
def secondScore : List (List Char × ℚ) → ℚ
  | [] => 0
  | q :: _ => q.2

/-- Turn the ranked (descending, stable) score list into the final
Prediction: none when no subcategory scored, otherwise the head subcategory
with confidence `clamp(0.2, 0.98, 0.55 + best*0.12 - second*0.07)` rounded
to two decimals. -/
def rankedToPrediction : List (List Char × ℚ) → Option Prediction
  | [] => none
  | (bestKey, bestScore) :: rest =>
    some ⟨(SUBCATEGORY_TO_CATEGORY bestKey).getD [], bestKey,
      round2 (max (2/10) (min (98/100)
        (55/100 + bestScore * (12/100) - secondScore rest * (7/100)))),
      chars "rules"⟩

/-- The keyword-scoring branch of `predict_category` (everything after the
alias check): rank the scored subcategories with a stable descending sort,
then derive the prediction from the two top scores. -/
def rulesPredict (normalized : List Char) : Option Prediction :=
  rankedToPrediction (List.insertionSort scoreGE (scoreEntries normalized))

/-- `predict_category` from `src/app/classifier.py`. The `alias_subcategory`
argument models the `str | None` parameter; an empty-string alias is falsy in
Python and is skipped exactly like `None`. -/
def predict_category (note : List Char) (aliasSub : Option (List Char)) : Option Prediction :=
  let normalized := normalize_text note
  if normalized = [] then none
  else
    match aliasSub with
    | some a =>
      if a = [] then rulesPredict normalized
      else
        match SUBCATEGORY_TO_CATEGORY a with
        | some c => some ⟨c, a, 97/100, chars "alias"⟩
        | none => rulesPredict normalized
    | none => rulesPredict normalized

/-! ## Persistent store (`src/app/db.py`) -/

/-- A row of the `expenses` table (the fields `add_expense` writes;
`spent_at`/`created_at` timestamps are not modelled). -/
structure ExpenseRow where
  id : ℕ
  groupId : ℤ
  userId : ℤ
  category : List Char
  subcategory : List Char
  amount : ℚ
  note : List Char
  sourceMessageId : ℤ
  autoCategory : List Char
  autoSubcategory : List Char
  autoConfidence : ℚ
  isAutoApplied : Bool
  rawCommentNormalized : List Char
deriving DecidableEq

/-- A row of the `pending_expenses` table. -/
structure PendingRow where
  id : ℕ
  groupId : ℤ
  userId : ℤ
  amount : ℚ
  note : List Char
  sourceMessageId : ℤ
  predictedCategory : List Char
  predictedSubcategory : List Char
  predictedConfidence : ℚ
  rawCommentNormalized : List Char
deriving DecidableEq

/-- A row of the append-only `category_feedback` table. -/
structure FeedbackRow where
  groupId : ℤ
  rawCommentNormalized : List Char
  predictedSubcategory : List Char
  chosenSubcategory : List Char
deriving DecidableEq

/-- A row of the `merchant_aliases` table (unique per (group, pattern)). -/
structure AliasRow where
  groupId : ℤ
  normalizedPattern : List Char
  subcategory : List Char
  confidence : ℚ
  source : List Char
deriving DecidableEq

/-- The mutable tables of `src/app/db.py` that the claims are about, plus the
autoincrement counters. -/
structure Db where
  expenses : List ExpenseRow
  nextExpenseId : ℕ
  pending : List PendingRow
  nextPendingId : ℕ
  feedback : List FeedbackRow
  aliases : List AliasRow
deriving DecidableEq

/-- A freshly initialised database: every table empty. -/
def initDb : Db := ⟨[], 1, [], 1, [], []⟩

/-- `Database.add_expense`: insert a new expense row, returning its id. -/
def add_expense (db : Db) (groupId userId : ℤ) (category subcategory : List Char)
    (amount : ℚ) (note : List Char) (sourceMessageId : ℤ)
    (autoCategory autoSubcategory : List Char) (autoConfidence : ℚ)
    (isAutoApplied : Bool) (rawCommentNormalized : List Char) : ℕ × Db :=
  (db.nextExpenseId,
    { db with
      expenses := db.expenses ++
        [⟨db.nextExpenseId, groupId, userId, category, subcategory, amount, note,
          sourceMessageId, autoCategory, autoSubcategory, autoConfidence,
          isAutoApplied, rawCommentNormalized⟩]
      nextExpenseId := db.nextExpenseId + 1 })

/-- `Database.create_pending_expense`: insert a pending row, returning its id. -/
def create_pending_expense (db : Db) (groupId userId : ℤ) (amount : ℚ)
    (note : List Char) (sourceMessageId : ℤ)
    (predictedCategory predictedSubcategory : List Char)
    (predictedConfidence : ℚ) (rawCommentNormalized : List Char) : ℕ × Db :=
  (db.nextPendingId,
    { db with
      pending := db.pending ++
        [⟨db.nextPendingId, groupId, userId, amount, note, sourceMessageId,
          predictedCategory, predictedSubcategory, predictedConfidence,
          rawCommentNormalized⟩]
      nextPendingId := db.nextPendingId + 1 })

/-- `Database.get_pending`: `SELECT ... FROM pending_expenses WHERE id = ?`. -/
def get_pending (db : Db) (pendingId : ℕ) : Option PendingRow :=
  db.pending.find? (fun p => p.id == pendingId)

/-- `Database.finalize_pending`: read the pending row (returning `none` if it
is absent), insert an expense carrying the resolved category/subcategory and
the pending row's amount, note and audit fields, then delete the pending row. -/
def finalize_pending (db : Db) (pendingId : ℕ) (category subcategory : List Char) :
    Option ℕ × Db :=
  match get_pending db pendingId with
  | none => (none, db)
  | some p =>
    let r := add_expense db p.groupId p.userId category subcategory p.amount p.note
      p.sourceMessageId p.predictedCategory p.predictedSubcategory
      p.predictedConfidence false p.rawCommentNormalized
    (some r.1, { r.2 with pending := r.2.pending.filter (fun q => q.id != pendingId) })

/-- `Database.get_alias_subcategory`: the group-scoped alias lookup. -/
def get_alias_subcategory (db : Db) (groupId : ℤ) (normalizedNote : List Char) :
    Option (List Char) :=
  if normalizedNote = [] then none
  else
    (db.aliases.find? (fun a => a.groupId == groupId && a.normalizedPattern == normalizedNote)).map
      (fun a => a.subcategory)

/-- The `ON CONFLICT (group_id, normalized_pattern) DO UPDATE` upsert of
`record_feedback`: overwrite the row for this (group, pattern) if one exists,
otherwise insert a fresh row. -/
def upsertAlias (al : List AliasRow) (groupId : ℤ) (pattern subcategory : List Char)
    (confidence : ℚ) (source : List Char) : List AliasRow :=
  if al.any (fun a => a.groupId == groupId && a.normalizedPattern == pattern) then
    al.map (fun a =>
      if a.groupId == groupId && a.normalizedPattern == pattern then
        { a with subcategory := subcategory, confidence := confidence, source := source }
      else a)
  else al ++ [⟨groupId, pattern, subcategory, confidence, source⟩]

/-- `COUNT(*)` of the feedback rows for one (group, normalized note). -/
def feedbackTotal (fb : List FeedbackRow) (groupId : ℤ) (norm : List Char) : ℕ :=
  (fb.filter (fun e => e.groupId == groupId && e.rawCommentNormalized == norm)).length

/-- `SUM(CASE WHEN chosen_subcategory = ? THEN 1 ELSE 0 END)` of the feedback
rows for one (group, normalized note). -/
def feedbackChosen (fb : List FeedbackRow) (groupId : ℤ) (norm chosen : List Char) : ℕ :=
  (fb.filter (fun e => e.groupId == groupId && e.rawCommentNormalized == norm &&
    e.chosenSubcategory == chosen)).length

/-- `Database.record_feedback`: no-op on an empty normalized note; otherwise
append one feedback row, recount `total`/`chosen_total` over this
(group, normalized note), and upsert a `0.97`/"feedback" alias when
`total ≥ 3` and `chosen_total / total ≥ 0.8`. -/
def record_feedback (db : Db) (groupId : ℤ)
    (rawCommentNormalized predictedSubcategory chosenSubcategory : List Char) : Db :=
  if rawCommentNormalized = [] then db
  else
    let fb := db.feedback ++
      [⟨groupId, rawCommentNormalized, predictedSubcategory, chosenSubcategory⟩]
    let total := feedbackTotal fb groupId rawCommentNormalized
    let chosenTotal := feedbackChosen fb groupId rawCommentNormalized chosenSubcategory
    if 3 ≤ total ∧ (8/10 : ℚ) ≤ (chosenTotal : ℚ) / (total : ℚ) then
      { db with
        feedback := fb
        aliases := upsertAlias db.aliases groupId rawCommentNormalized
          chosenSubcategory (97/100) (chars "feedback") }
    else { db with feedback := fb }

/-- `Database.undo_last_by_user`: delete the matching expense with the
greatest id (`ORDER BY id DESC LIMIT 1`), if any. -/
def undo_last_by_user (db : Db) (groupId userId : ℤ) : Db :=
  match ((db.expenses.filter (fun e => e.groupId == groupId && e.userId == userId)).map
      (fun e => e.id)).max? with
  | none => db
  | some i => { db with expenses := db.expenses.filter (fun e => e.id != i) }

/-! ## Bot handlers (`src/app/bot.py`) -/

/-- `process_expense_text` from `src/app/bot.py`, from the point where
`extract_expense_parts` has produced `(amount, quick_category, note)`:
a quick category is stored directly with an empty subcategory; otherwise the
note (when non-empty) is classified with the group's alias, and the expense
is stored immediately in every case — auto-apply (confidence at or above the
threshold), low-confidence fallback (which stores the same row and differs
only in logging), and the no-prediction fallback to category "other". -/
def process_expense_text (db : Db) (threshold : ℚ) (groupId userId messageId : ℤ)
    (amount : ℚ) (quickCategory : Option (List Char)) (note : List Char) : Db :=
  let normalizedNote := normalize_text note
  match quickCategory with
  | some qc =>
    (add_expense db groupId userId qc [] amount note messageId qc [] 1 false
      normalizedNote).2
  | none =>
    match (if note ≠ [] then
        predict_category note (get_alias_subcategory db groupId normalizedNote)
      else none) with
    | some p =>
      if threshold ≤ p.confidence then
        (add_expense db groupId userId p.category p.subcategory amount note messageId
          p.category p.subcategory p.confidence true normalizedNote).2
      else
        (add_expense db groupId userId p.category p.subcategory amount note messageId
          p.category p.subcategory p.confidence true normalizedNote).2
    | none =>
      (add_expense db groupId userId (chars "other") [] amount note messageId [] [] 0
        true normalizedNote).2

/-- `on_category_chosen` from `src/app/bot.py`: validate the button's base
category, look up the pending record (stale buttons see `None` and leave the
state unchanged), enforce that only the original author resolves, keep the
predicted subcategory only when its parent is the chosen category, finalize,
and record feedback when a predicted and a chosen subcategory both exist. -/
def on_category_chosen (db : Db) (pendingId : ℕ) (category : List Char)
    (fromUser : ℤ) : Db :=
  if category ∉ BASE_CATEGORIES then db
  else
    match get_pending db pendingId with
    | none => db
    | some p =>
      if fromUser ≠ p.userId then db
      else
        let chosenSub :=
          if p.predictedSubcategory ≠ [] ∧
              SUBCATEGORY_TO_CATEGORY p.predictedSubcategory = some category then
            p.predictedSubcategory
          else []
        match finalize_pending db pendingId category chosenSub with
        | (none, db1) => db1
        | (some _, db1) =>
          if p.predictedSubcategory ≠ [] ∧ chosenSub ≠ [] then
            record_feedback db1 p.groupId p.rawCommentNormalized
              p.predictedSubcategory chosenSub
          else db1

/-- One processing step of the bot: an expense message (plain text or `/add`,
already split by `extract_expense_parts`), a category-button callback, or
`/undo`. The remaining handlers only read the tables modelled here or touch
group settings. -/
inductive Step : Db → Db → Prop
  | message (db : Db) (threshold : ℚ) (groupId userId messageId : ℤ) (amount : ℚ)
      (quickCategory : Option (List Char)) (note : List Char) :
      Step db (process_expense_text db threshold groupId userId messageId amount
        quickCategory note)
  | callback (db : Db) (pendingId : ℕ) (category : List Char) (fromUser : ℤ) :
      Step db (on_category_chosen db pendingId category fromUser)
  | undo (db : Db) (groupId userId : ℤ) :
      Step db (undo_last_by_user db groupId userId)

/-- States reachable from a fresh database through bot processing steps. -/
inductive Reachable : Db → Prop
  | init : Reachable initDb
  | step {db db' : Db} : Reachable db → Step db db' → Reachable db'

/-! ## Specification-side definitions used to state the claims -/

/-- The per-subcategory score exactly as the specification words it: a sum
over the subcategory's keywords of `1.0` for a substring occurrence plus an
independent `0.35` for an exact or leading match. Compared against the
code's `subScore` (which is a fold adding the bonus inside the substring
branch). -/
def specScore (normalized : List Char) (s : SubcategoryDef) : ℚ :=
  (s.keywords.map (fun w =>
    (if w <:+: normalized then (1 : ℚ) else 0) +
      (if normalized = w ∨ w ++ [' '] <+: normalized then 35/100 else 0))).sum

/-- No two adjacent characters of the list are both whitespace ("no doubled
whitespace"). -/
def noWSRun (l : List Char) : Prop :=
  l.Chain' (fun c d => isSpaceChar c = false ∨ isSpaceChar d = false)

instance (l : List Char) : Decidable (noWSRun l) :=
  inferInstanceAs (Decidable (l.Chain' _))

/-- A demonstration state holding one open pending decision (used to
instantiate the pending-resolution theorems on concrete data). -/
def pendingDemoDb : Db :=
  { initDb with
    pending := [⟨5, 1, 2, 100, chars "такси", 3, chars "transport",
      chars "transport_taxi", 71/100, chars "такси"⟩]
    nextPendingId := 6 }

/-- A demonstration state holding two consistent feedback rows, one short of
the promotion threshold (used to instantiate the feedback theorems on
concrete data). -/
def feedbackDemoDb : Db :=
  { initDb with
    feedback :=
      [⟨1, chars "подписка нетфликс", chars "x", chars "subscriptions_digital"⟩,
       ⟨1, chars "подписка нетфликс", chars "x", chars "subscriptions_digital"⟩] }

/-! ## Taxonomy lemmas -/

lemma subcat_key_ne_nil : ∀ s ∈ SUBCATEGORIES, s.key ≠ [] := by decide

lemma lookup_eq_some {k c : List Char} (h : SUBCATEGORY_TO_CATEGORY k = some c) :
    ∃ s ∈ SUBCATEGORIES, s.key = k ∧ s.category = c := by
  unfold SUBCATEGORY_TO_CATEGORY at h
  rcases Option.map_eq_some'.mp h with ⟨s, hs, hcat⟩
  exact ⟨s, List.mem_of_find?_eq_some hs,
    by simpa using List.find?_some hs, hcat⟩

lemma lookup_arg_ne_nil {k c : List Char} (h : SUBCATEGORY_TO_CATEGORY k = some c) :
    k ≠ [] := by
  rcases lookup_eq_some h with ⟨s, hmem, hkey, _⟩
  exact hkey ▸ subcat_key_ne_nil s hmem

lemma lookup_isSome_of_mem {s : SubcategoryDef} (h : s ∈ SUBCATEGORIES) :
    ∃ c, SUBCATEGORY_TO_CATEGORY s.key = some c := by
  unfold SUBCATEGORY_TO_CATEGORY
  have : (SUBCATEGORIES.find? (fun t => t.key == s.key)).isSome := by
    rw [List.find?_isSome]
    exact ⟨s, h, by simp⟩
  rcases Option.isSome_iff_exists.mp this with ⟨t, ht⟩
  exact ⟨t.category, by rw [ht]; rfl⟩

/-! ## C4 — the alias path -/

/-- **C4.** For every note with non-empty normalization whose alias lookup
returned a subcategory present in the taxonomy, `predict_category` returns
exactly that subcategory with its taxonomy parent, confidence `0.97` and
reason `"alias"`, regardless of the note's keywords. -/
theorem alias_short_circuits_scoring (note a c : List Char)
    (hc : SUBCATEGORY_TO_CATEGORY a = some c)
    (hnorm : normalize_text note ≠ []) :
    predict_category note (some a) = some ⟨c, a, 97/100, chars "alias"⟩ := by
  have hne : a ≠ [] := lookup_arg_ne_nil hc
  unfold predict_category
  simp [hnorm, hne, hc]

/-- Witness for C4 at a concrete input: the note "такси" (whose keywords
score `transport_taxi`) is overridden by the alias `food_out`. -/
theorem alias_short_circuits_scoring_witness :
    predict_category (chars "такси") (some (chars "food_out")) =
      some ⟨chars "food", chars "food_out", 97/100, chars "alias"⟩ :=
  alias_short_circuits_scoring _ _ _ (by decide) (by decide)

/-! ## C6 — keyword scoring and the "none" outcome -/

lemma bonus_imp_substring {norm w : List Char}
    (h : norm = w ∨ w ++ [' '] <+: norm) : w <:+: norm := by
  rcases h with h | h
  · exact h ▸ List.infix_refl w
  · exact ((List.prefix_append w [' ']).trans h).isInfix

lemma subScore_foldl_go (norm : List Char) (ws : List (List Char)) : ∀ a : ℚ,
    ws.foldl (fun acc w =>
      if w <:+: norm then
        acc + 1 + (if norm = w ∨ w ++ [' '] <+: norm then 35/100 else 0)
      else acc) a
    = a + (ws.map (fun w =>
        (if w <:+: norm then (1 : ℚ) else 0) +
          (if norm = w ∨ w ++ [' '] <+: norm then 35/100 else 0))).sum := by
  induction ws with
  | nil => simp
  | cons w ws ih =>
    intro a
    simp only [List.foldl_cons, List.map_cons, List.sum_cons]
    rw [ih]
    by_cases hw : w <:+: norm
    · simp only [if_pos hw]; ring
    · have hb : ¬(norm = w ∨ w ++ [' '] <+: norm) := fun h => hw (bonus_imp_substring h)
      simp only [if_neg hw, if_neg hb]; ring

lemma subScore_eq_specScore (norm : List Char) (s : SubcategoryDef) :
    subScore norm s = specScore norm s := by
  unfold subScore specScore
  simpa using subScore_foldl_go norm s.keywords 0

/-- **C6.** With no alias, each subcategory's score is the sum, over its
keywords, of `1.0` per substring occurrence plus `0.35` for an exact or
leading match (the code's fold equals the specification's sum); and when the
normalization is empty or every subcategory scores zero, `predict_category`
returns `none` rather than an error. -/
theorem keyword_scoring_formula_and_none (note : List Char) :
    (∀ s ∈ SUBCATEGORIES,
      subScore (normalize_text note) s = specScore (normalize_text note) s) ∧
    ((normalize_text note = [] ∨
        ∀ s ∈ SUBCATEGORIES, subScore (normalize_text note) s = 0) →
      predict_category note none = none) := by
  constructor
  · exact fun s _ => subScore_eq_specScore _ s
  · intro h
    rcases h with h | h
    · unfold predict_category
      simp [h]
    · have hsc : scoreEntries (normalize_text note) = [] := by
        unfold scoreEntries
        rw [List.filter_eq_nil_iff]
        intro p hp
        rcases List.mem_map.mp hp with ⟨s, hs, rfl⟩
        simp [h s hs]
      unfold predict_category
      by_cases hn : normalize_text note = []
      · simp [hn]
      · simp only [if_neg hn]
        unfold rulesPredict
        rw [hsc]
        rfl

/-- Witness for C6: a note matching no keyword scores zero everywhere and
yields no prediction. -/
theorem keyword_scoring_formula_and_none_witness :
    (∀ s ∈ SUBCATEGORIES, subScore (normalize_text (chars "xyzabc")) s = 0) ∧
      predict_category (chars "xyzabc") none = none :=
  ⟨by decide, (keyword_scoring_formula_and_none _).2 (Or.inr (by decide))⟩

/-! ## C9 — pending resolution is exactly-once -/

lemma find?_filter_ne_id (l : List PendingRow) (pid : ℕ) :
    (l.filter (fun q => q.id != pid)).find? (fun q => q.id == pid) = none := by
  rw [List.find?_eq_none]
  intro x hx
  have hq := List.of_mem_filter hx
  simp only [bne_iff_ne, ne_eq] at hq
  simp [hq]

lemma finalize_pending_of_none {db : Db} {pendingId : ℕ} (category subcategory : List Char)
    (h : get_pending db pendingId = none) :
    finalize_pending db pendingId category subcategory = (none, db) := by
  unfold finalize_pending
  rw [h]

/-- **C9.** `finalize_pending` is exactly-once: on a missing id it returns
`NotFound` (`none`) and leaves the state unchanged; on a present pending row
it returns a fresh expense id, appends an expense built from the pending
row's stored amount, note and audit fields with the resolved
category/subcategory, and deletes the pending row — after which a repeated
resolution of the same id observes `NotFound` and changes nothing. -/
theorem finalize_pending_exactly_once (db : Db) (pendingId : ℕ)
    (category subcategory : List Char) :
    (get_pending db pendingId = none →
      finalize_pending db pendingId category subcategory = (none, db)) ∧
    (∀ p, get_pending db pendingId = some p →
      finalize_pending db pendingId category subcategory =
        (some db.nextExpenseId,
          { db with
            expenses := db.expenses ++
              [⟨db.nextExpenseId, p.groupId, p.userId, category, subcategory,
                p.amount, p.note, p.sourceMessageId, p.predictedCategory,
                p.predictedSubcategory, p.predictedConfidence, false,
                p.rawCommentNormalized⟩]
            nextExpenseId := db.nextExpenseId + 1
            pending := db.pending.filter (fun q => q.id != pendingId) }) ∧
      get_pending (finalize_pending db pendingId category subcategory).2 pendingId = none ∧
      (∀ category' subcategory',
        finalize_pending (finalize_pending db pendingId category subcategory).2
            pendingId category' subcategory' =
          (none, (finalize_pending db pendingId category subcategory).2))) := by
  constructor
  · intro h
    exact finalize_pending_of_none category subcategory h
  · intro p hp
    have hfin : finalize_pending db pendingId category subcategory =
        (some db.nextExpenseId,
          { db with
            expenses := db.expenses ++
              [⟨db.nextExpenseId, p.groupId, p.userId, category, subcategory,
                p.amount, p.note, p.sourceMessageId, p.predictedCategory,
                p.predictedSubcategory, p.predictedConfidence, false,
                p.rawCommentNormalized⟩]
            nextExpenseId := db.nextExpenseId + 1
            pending := db.pending.filter (fun q => q.id != pendingId) }) := by
      unfold finalize_pending
      rw [hp]
      rfl
    have hnone : get_pending (finalize_pending db pendingId category subcategory).2
        pendingId = none := by
      rw [hfin]
      unfold get_pending
      exact find?_filter_ne_id db.pending pendingId
    exact ⟨hfin, hnone,
      fun category' subcategory' => finalize_pending_of_none category' subcategory' hnone⟩

/-- Witness for C9: resolving the demonstration pending decision succeeds
once and the second attempt observes `NotFound`. -/
theorem finalize_pending_exactly_once_witness :
    get_pending (finalize_pending pendingDemoDb 5 (chars "transport")
        (chars "transport_taxi")).2 5 = none ∧
    (∀ category' subcategory',
      finalize_pending (finalize_pending pendingDemoDb 5 (chars "transport")
          (chars "transport_taxi")).2 5 category' subcategory' =
        (none, (finalize_pending pendingDemoDb 5 (chars "transport")
          (chars "transport_taxi")).2)) :=
  ⟨((finalize_pending_exactly_once pendingDemoDb 5 (chars "transport")
      (chars "transport_taxi")).2
        ⟨5, 1, 2, 100, chars "такси", 3, chars "transport", chars "transport_taxi",
          71/100, chars "такси"⟩ (by decide)).2.1,
   ((finalize_pending_exactly_once pendingDemoDb 5 (chars "transport")
      (chars "transport_taxi")).2
        ⟨5, 1, 2, 100, chars "такси", 3, chars "transport", chars "transport_taxi",
          71/100, chars "такси"⟩ (by decide)).2.2⟩

/-! ## C5 — feedback recording and alias promotion -/

lemma find_upsertAlias (al : List AliasRow) (g : ℤ) (pat sub : List Char)
    (conf : ℚ) (src : List Char) :
    (upsertAlias al g pat sub conf src).find?
        (fun a => a.groupId == g && a.normalizedPattern == pat) =
      some ⟨g, pat, sub, conf, src⟩ := by
  unfold upsertAlias
  by_cases h : al.any (fun a => a.groupId == g && a.normalizedPattern == pat)
  · rw [if_pos h]
    rw [List.find?_map]
    have hpf : ((fun a : AliasRow => a.groupId == g && a.normalizedPattern == pat) ∘
        (fun a => if a.groupId == g && a.normalizedPattern == pat then
          { a with subcategory := sub, confidence := conf, source := src }
        else a)) =
        (fun a : AliasRow => a.groupId == g && a.normalizedPattern == pat) := by
      funext a
      by_cases ha : (a.groupId == g && a.normalizedPattern == pat) = true
      · simp [Function.comp, ha]
      · simp [Function.comp, ha]
    rw [hpf]
    obtain ⟨a₀, ha₀⟩ : ∃ a₀, al.find?
        (fun a => a.groupId == g && a.normalizedPattern == pat) = some a₀ :=
      Option.isSome_iff_exists.mp (List.find?_isSome.mpr (List.any_eq_true.mp h))
    rw [ha₀]
    have hm := List.find?_some ha₀
    simp only [Bool.and_eq_true, beq_iff_eq] at hm
    simp [hm.1, hm.2]
  · rw [if_neg h]
    rw [List.find?_append]
    have hn : al.find? (fun a => a.groupId == g && a.normalizedPattern == pat) = none := by
      rw [List.find?_eq_none]
      intro x hx hpx
      exact h (List.any_eq_true.mpr ⟨x, hx, hpx⟩)
    rw [hn]
    simp

/-- **C5.** `record_feedback` is a no-op on an empty normalized note;
otherwise it appends exactly one feedback event (touching no other table),
and it promotes an alias if and only if, over the same (group, normalized
note), the post-insert total is at least 3 and the fraction choosing the
subcategory just recorded is at least 0.8 — in which case the upserted row
carries that subcategory, confidence exactly 0.97 and source "feedback",
and (the chosen subcategory being in the taxonomy) the very next
`predict_category` call for this group and note returns the alias. -/
theorem record_feedback_promotion (db : Db) (g : ℤ) (norm pred chosen : List Char) :
    (norm = [] → record_feedback db g norm pred chosen = db) ∧
    (norm ≠ [] →
      (record_feedback db g norm pred chosen).feedback =
          db.feedback ++ [⟨g, norm, pred, chosen⟩] ∧
      (record_feedback db g norm pred chosen).expenses = db.expenses ∧
      (record_feedback db g norm pred chosen).pending = db.pending ∧
      ((3 ≤ feedbackTotal (db.feedback ++ [⟨g, norm, pred, chosen⟩]) g norm ∧
          (8/10 : ℚ) ≤
            (feedbackChosen (db.feedback ++ [⟨g, norm, pred, chosen⟩]) g norm chosen : ℚ) /
              (feedbackTotal (db.feedback ++ [⟨g, norm, pred, chosen⟩]) g norm : ℚ)) →
        (record_feedback db g norm pred chosen).aliases =
            upsertAlias db.aliases g norm chosen (97/100) (chars "feedback") ∧
        get_alias_subcategory (record_feedback db g norm pred chosen) g norm =
            some chosen ∧
        (∀ c, SUBCATEGORY_TO_CATEGORY chosen = some c →
          ∀ note, normalize_text note = norm →
            predict_category note
                (get_alias_subcategory (record_feedback db g norm pred chosen) g norm) =
              some ⟨c, chosen, 97/100, chars "alias"⟩)) ∧
      (¬(3 ≤ feedbackTotal (db.feedback ++ [⟨g, norm, pred, chosen⟩]) g norm ∧
          (8/10 : ℚ) ≤
            (feedbackChosen (db.feedback ++ [⟨g, norm, pred, chosen⟩]) g norm chosen : ℚ) /
              (feedbackTotal (db.feedback ++ [⟨g, norm, pred, chosen⟩]) g norm : ℚ)) →
        (record_feedback db g norm pred chosen).aliases = db.aliases)) := by
  constructor
  · intro h
    unfold record_feedback
    rw [if_pos h]
  · intro hnorm
    by_cases hcond : 3 ≤ feedbackTotal (db.feedback ++ [⟨g, norm, pred, chosen⟩]) g norm ∧
        (8/10 : ℚ) ≤
          (feedbackChosen (db.feedback ++ [⟨g, norm, pred, chosen⟩]) g norm chosen : ℚ) /
            (feedbackTotal (db.feedback ++ [⟨g, norm, pred, chosen⟩]) g norm : ℚ)
    · have hdb : record_feedback db g norm pred chosen =
          { db with
            feedback := db.feedback ++ [⟨g, norm, pred, chosen⟩]
            aliases := upsertAlias db.aliases g norm chosen (97/100) (chars "feedback") } := by
        unfold record_feedback
        rw [if_neg hnorm, if_pos hcond]
      have hlook : get_alias_subcategory (record_feedback db g norm pred chosen) g norm =
          some chosen := by
        rw [hdb]
        unfold get_alias_subcategory
        rw [if_neg hnorm]
        show ((upsertAlias db.aliases g norm chosen (97/100) (chars "feedback")).find?
          (fun a => a.groupId == g && a.normalizedPattern == norm)).map
            (fun a => a.subcategory) = some chosen
        rw [find_upsertAlias]
        rfl
      refine ⟨by rw [hdb], by rw [hdb], by rw [hdb],
        fun _ => ⟨by rw [hdb], hlook, fun c hc note hnote => ?_⟩,
        fun hn => absurd hcond hn⟩
      rw [hlook]
      exact alias_short_circuits_scoring note chosen c hc (hnote ▸ hnorm)
    · have hdb : record_feedback db g norm pred chosen =
          { db with feedback := db.feedback ++ [⟨g, norm, pred, chosen⟩] } := by
        unfold record_feedback
        rw [if_neg hnorm, if_neg hcond]
      exact ⟨by rw [hdb], by rw [hdb], by rw [hdb],
        fun hc => absurd hc hcond, fun _ => by rw [hdb]⟩

/-- Witness for C5: the third consistent feedback event on
"подписка нетфликс" promotes the alias, and the next prediction for that
note returns it. -/
theorem record_feedback_promotion_witness :
    (record_feedback feedbackDemoDb 1 (chars "подписка нетфликс") (chars "x")
        (chars "subscriptions_digital")).feedback =
      feedbackDemoDb.feedback ++
        [⟨1, chars "подписка нетфликс", chars "x", chars "subscriptions_digital"⟩] ∧
    predict_category (chars "подписка нетфликс")
        (get_alias_subcategory
          (record_feedback feedbackDemoDb 1 (chars "подписка нетфликс") (chars "x")
            (chars "subscriptions_digital")) 1 (chars "подписка нетфликс")) =
      some ⟨chars "subscriptions", chars "subscriptions_digital", 97/100,
        chars "alias"⟩ :=
  ⟨((record_feedback_promotion feedbackDemoDb 1 (chars "подписка нетфликс")
      (chars "x") (chars "subscriptions_digital")).2 (by decide)).1,
   ((((record_feedback_promotion feedbackDemoDb 1 (chars "подписка нетфликс")
      (chars "x") (chars "subscriptions_digital")).2 (by decide)).2.2.2.1
        (by decide)).2.2 _ (by decide) _ (by decide))⟩

/-! ## C1 — what actually happens below the auto-apply threshold -/

/-- **C1 (counterexample).** The note "кофе и круассан" yields a prediction
with confidence `0.71`, strictly below the default threshold `0.82`; yet the
message-processing handler opens no `PendingDecision` — the pending store
stays empty — and instead finalizes the expense immediately with the
prediction's category and subcategory and `is_auto_applied = true`. -/
theorem low_confidence_pending_counterexample :
    predict_category (chars "кофе и круассан") none =
      some ⟨chars "food", chars "food_out", 71/100, chars "rules"⟩ ∧
    (71/100 : ℚ) < 82/100 ∧
    (process_expense_text initDb (82/100) 1 2 3 450 none
        (chars "кофе и круассан")).pending = [] ∧
    (process_expense_text initDb (82/100) 1 2 3 450 none
        (chars "кофе и круассан")).expenses =
      [⟨1, 1, 2, chars "food", chars "food_out", 450, chars "кофе и круассан", 3,
        chars "food", chars "food_out", 71/100, true, chars "кофе и круассан"⟩] := by
  decide

/-- **C1 (amended).** For every incoming expense message (with no quick
category) whose note yields a Prediction with confidence strictly below the
threshold, the engine does *not* open a `PendingDecision`: it finalizes an
Expense immediately, carrying the prediction's category and subcategory,
the prediction recorded in the audit fields, and `is_auto_applied = true`;
the pending store is left untouched. -/
theorem low_confidence_finalizes_immediately (db : Db) (threshold : ℚ)
    (groupId userId messageId : ℤ) (amount : ℚ) (note : List Char) (p : Prediction)
    (hnote : note ≠ [])
    (hpred : predict_category note
      (get_alias_subcategory db groupId (normalize_text note)) = some p)
    (hconf : p.confidence < threshold) :
    process_expense_text db threshold groupId userId messageId amount none note =
      { db with
        expenses := db.expenses ++
          [⟨db.nextExpenseId, groupId, userId, p.category, p.subcategory, amount,
            note, messageId, p.category, p.subcategory, p.confidence, true,
            normalize_text note⟩]
        nextExpenseId := db.nextExpenseId + 1 } ∧
    (process_expense_text db threshold groupId userId messageId amount none
        note).pending = db.pending := by
  have hnle : ¬ threshold ≤ p.confidence := not_le.mpr hconf
  have hmain : process_expense_text db threshold groupId userId messageId amount none note =
      { db with
        expenses := db.expenses ++
          [⟨db.nextExpenseId, groupId, userId, p.category, p.subcategory, amount,
            note, messageId, p.category, p.subcategory, p.confidence, true,
            normalize_text note⟩]
        nextExpenseId := db.nextExpenseId + 1 } := by
    have hif : (if note ≠ [] then
        predict_category note (get_alias_subcategory db groupId (normalize_text note))
      else none) = some p := by
      rw [if_pos hnote]; exact hpred
    simp only [process_expense_text, hif, if_neg hnle, add_expense]
  exact ⟨hmain, by rw [hmain]⟩

/-- Witness for the amended C1 at the counterexample input. -/
theorem low_confidence_finalizes_immediately_witness :
    process_expense_text initDb (82/100) 1 2 3 450 none (chars "кофе и круассан") =
      { initDb with
        expenses := initDb.expenses ++
          [⟨1, 1, 2, chars "food", chars "food_out", 450, chars "кофе и круассан", 3,
            chars "food", chars "food_out", 71/100, true, chars "кофе и круассан"⟩]
        nextExpenseId := 2 } ∧
    (process_expense_text initDb (82/100) 1 2 3 450 none
        (chars "кофе и круассан")).pending = initDb.pending :=
  low_confidence_finalizes_immediately initDb (82/100) 1 2 3 450
    (chars "кофе и круассан") ⟨chars "food", chars "food_out", 71/100, chars "rules"⟩
    (by decide) (by decide) (by decide)

/-! ## C2 — the pending store is empty in every reachable state -/

lemma process_expense_text_tables (db : Db) (threshold : ℚ)
    (groupId userId messageId : ℤ) (amount : ℚ)
    (quickCategory : Option (List Char)) (note : List Char) :
    (process_expense_text db threshold groupId userId messageId amount quickCategory
        note).pending = db.pending ∧
    (process_expense_text db threshold groupId userId messageId amount quickCategory
        note).feedback = db.feedback ∧
    (process_expense_text db threshold groupId userId messageId amount quickCategory
        note).aliases = db.aliases := by
  unfold process_expense_text
  dsimp only
  split
  · simp [add_expense]
  · split
    · split
      · simp [add_expense]
      · simp [add_expense]
    · simp [add_expense]

lemma undo_last_by_user_tables (db : Db) (groupId userId : ℤ) :
    (undo_last_by_user db groupId userId).pending = db.pending ∧
    (undo_last_by_user db groupId userId).feedback = db.feedback ∧
    (undo_last_by_user db groupId userId).aliases = db.aliases := by
  unfold undo_last_by_user
  split
  · exact ⟨rfl, rfl, rfl⟩
  · exact ⟨rfl, rfl, rfl⟩

lemma on_category_chosen_of_empty_pending {db : Db} (hp : db.pending = [])
    (pendingId : ℕ) (category : List Char) (fromUser : ℤ) :
    on_category_chosen db pendingId category fromUser = db := by
  have hnone : get_pending db pendingId = none := by
    unfold get_pending
    rw [hp]
    rfl
  unfold on_category_chosen
  rw [hnone]
  split <;> rfl

/-- **C2.** In every state reachable through the bot's message-processing
step relation the pending-expense store is empty — no handler ever inserts a
pending row — so every category-button resolution looks up an absent record
(`get_pending` returns `none`, the NotFound path), and in consequence the
feedback log and the alias table also stay empty: `record_feedback`, and
with it alias promotion, is never invoked from message processing. -/
theorem pending_store_always_empty {db : Db} (h : Reachable db) :
    db.pending = [] ∧ (∀ pendingId, get_pending db pendingId = none) ∧
    db.feedback = [] ∧ db.aliases = [] := by
  induction h with
  | init => exact ⟨rfl, fun _ => rfl, rfl, rfl⟩
  | step _ hs ih =>
    cases hs with
    | message threshold groupId userId messageId amount quickCategory note =>
      obtain ⟨hp, hf, ha⟩ := process_expense_text_tables _ threshold groupId userId
        messageId amount quickCategory note
      refine ⟨hp.trans ih.1, fun pid => ?_, hf.trans ih.2.2.1, ha.trans ih.2.2.2⟩
      unfold get_pending
      rw [hp, ih.1]
      rfl
    | callback pendingId category fromUser =>
      rw [on_category_chosen_of_empty_pending ih.1 pendingId category fromUser]
      exact ih
    | undo groupId userId =>
      obtain ⟨hp, hf, ha⟩ := undo_last_by_user_tables _ groupId userId
      refine ⟨hp.trans ih.1, fun pid => ?_, hf.trans ih.2.2.1, ha.trans ih.2.2.2⟩
      unfold get_pending
      rw [hp, ih.1]
      rfl

/-- Witness for C2: after one concrete low-confidence message step from the
fresh state, the pending store (and the feedback and alias tables) are still
empty. -/
theorem pending_store_always_empty_witness :
    (process_expense_text initDb (82/100) 1 2 3 450 none
        (chars "кофе и круассан")).pending = [] ∧
    (∀ pendingId, get_pending (process_expense_text initDb (82/100) 1 2 3 450 none
        (chars "кофе и круассан")) pendingId = none) ∧
    (process_expense_text initDb (82/100) 1 2 3 450 none
        (chars "кофе и круассан")).feedback = [] ∧
    (process_expense_text initDb (82/100) 1 2 3 450 none
        (chars "кофе и круассан")).aliases = [] :=
  pending_store_always_empty
    (Reachable.step Reachable.init
      (Step.message initDb (82/100) 1 2 3 450 none (chars "кофе и круассан")))

/-! ## C3 — finalized expenses never contradict the taxonomy -/

lemma mem_append_singleton {α : Type*} {l : List α} {x e : α}
    (he : e ∈ l ++ [x]) (hn : e ∉ l) : e = x := by
  rcases List.mem_append.mp he with h | h
  · exact absurd h hn
  · simpa using h

lemma mem_add_expense {db : Db} {e : ExpenseRow} {groupId userId : ℤ}
    {category subcategory : List Char} {amount : ℚ} {note : List Char}
    {messageId : ℤ} {autoCategory autoSubcategory : List Char}
    {autoConfidence : ℚ} {isAutoApplied : Bool} {rawCommentNormalized : List Char}
    (he : e ∈ (add_expense db groupId userId category subcategory amount note
      messageId autoCategory autoSubcategory autoConfidence isAutoApplied
      rawCommentNormalized).2.expenses)
    (hn : e ∉ db.expenses) :
    e = ⟨db.nextExpenseId, groupId, userId, category, subcategory, amount, note,
      messageId, autoCategory, autoSubcategory, autoConfidence, isAutoApplied,
      rawCommentNormalized⟩ :=
  mem_append_singleton he hn

lemma record_feedback_expenses (db : Db) (groupId : ℤ)
    (norm pred chosen : List Char) :
    (record_feedback db groupId norm pred chosen).expenses = db.expenses := by
  unfold record_feedback
  split
  · rfl
  · dsimp only
    split <;> rfl

lemma scoreEntries_mem {norm : List Char} {x : List Char × ℚ}
    (hx : x ∈ scoreEntries norm) :
    ∃ s ∈ SUBCATEGORIES, x = (s.key, subScore norm s) := by
  unfold scoreEntries at hx
  rcases List.mem_map.mp (List.mem_of_mem_filter hx) with ⟨s, hs, rfl⟩
  exact ⟨s, hs, rfl⟩

lemma scoreEntries_snd_ne_zero {norm : List Char} {x : List Char × ℚ}
    (hx : x ∈ scoreEntries norm) : x.2 ≠ 0 := by
  unfold scoreEntries at hx
  have := List.of_mem_filter hx
  simpa using this

lemma rulesPredict_consistent {norm : List Char} {p : Prediction}
    (h : rulesPredict norm = some p) :
    SUBCATEGORY_TO_CATEGORY p.subcategory = some p.category ∧
      p.reason = chars "rules" := by
  unfold rulesPredict at h
  cases hsort : List.insertionSort scoreGE (scoreEntries norm) with
  | nil => rw [hsort] at h; cases h
  | cons x rest =>
    rw [hsort] at h
    obtain ⟨bk, bs⟩ := x
    have hmem : (bk, bs) ∈ scoreEntries norm :=
      (List.perm_insertionSort scoreGE (scoreEntries norm)).subset
        (hsort ▸ List.mem_cons_self _ _)
    rcases scoreEntries_mem hmem with ⟨s, hs, heq⟩
    have hbk : bk = s.key := congrArg Prod.fst heq
    rcases lookup_isSome_of_mem hs with ⟨c, hc⟩
    have hc' : SUBCATEGORY_TO_CATEGORY bk = some c := by rw [hbk]; exact hc
    cases h
    exact ⟨by rw [hc']; rfl, rfl⟩

lemma predict_consistent {note : List Char} {aliasSub : Option (List Char)}
    {p : Prediction} (h : predict_category note aliasSub = some p) :
    SUBCATEGORY_TO_CATEGORY p.subcategory = some p.category := by
  unfold predict_category at h
  dsimp only at h
  by_cases hn : normalize_text note = []
  · rw [if_pos hn] at h; cases h
  · rw [if_neg hn] at h
    cases aliasSub with
    | none => exact (rulesPredict_consistent h).1
    | some a =>
      dsimp only at h
      by_cases ha : a = []
      · rw [if_pos ha] at h; exact (rulesPredict_consistent h).1
      · rw [if_neg ha] at h
        cases hc : SUBCATEGORY_TO_CATEGORY a with
        | none => rw [hc] at h; exact (rulesPredict_consistent h).1
        | some c => rw [hc] at h; cases h; simpa using hc

/-- **C3.** Every expense a processing step finalizes — quick-category,
auto-apply, low-confidence fallback, no-prediction fallback, or pending
resolution — satisfies the taxonomy invariant: whenever its subcategory is
non-empty, its category equals that subcategory's taxonomy parent (on
resolution the predicted subcategory is kept only when its parent is the
chosen base category, otherwise the subcategory is left empty). -/
theorem finalized_expense_taxonomy_consistent {db db' : Db} (hstep : Step db db') :
    ∀ e ∈ db'.expenses, e ∉ db.expenses → e.subcategory ≠ [] →
      SUBCATEGORY_TO_CATEGORY e.subcategory = some e.category := by
  cases hstep with
  | message threshold groupId userId messageId amount quickCategory note =>
    intro e he hnew hsub
    revert he
    unfold process_expense_text
    dsimp only
    split
    · intro he
      have he' := mem_add_expense he hnew
      subst he'
      exact absurd rfl hsub
    · split
      · rename_i p hp
        have hcons : SUBCATEGORY_TO_CATEGORY p.subcategory = some p.category := by
          by_cases hn : note ≠ []
          · rw [if_pos hn] at hp; exact predict_consistent hp
          · rw [if_neg hn] at hp; cases hp
        split
        · intro he
          have he' := mem_add_expense he hnew
          subst he'
          exact hcons
        · intro he
          have he' := mem_add_expense he hnew
          subst he'
          exact hcons
      · intro he
        have he' := mem_add_expense he hnew
        subst he'
        exact absurd rfl hsub
  | callback pendingId category fromUser =>
    intro e he hnew hsub
    revert he
    unfold on_category_chosen
    split
    · intro he; exact absurd he hnew
    · split
      · intro he; exact absurd he hnew
      · rename_i p hp
        split
        · intro he; exact absurd he hnew
        · dsimp only
          split
          · rename_i heq
            unfold finalize_pending at heq
            rw [hp] at heq
            cases heq
          · rename_i eid db1 heq
            unfold finalize_pending at heq
            rw [hp] at heq
            injection heq with h1 h2
            subst h2
            split
            · rename_i hcs
              split
              · intro he
                rw [record_feedback_expenses] at he
                have he' := mem_add_expense he hnew
                subst he'
                exact hcs.2
              · intro he
                have he' := mem_add_expense he hnew
                subst he'
                exact hcs.2
            · split
              · intro he
                rw [record_feedback_expenses] at he
                have he' := mem_add_expense he hnew
                subst he'
                exact absurd rfl hsub
              · intro he
                have he' := mem_add_expense he hnew
                subst he'
                exact absurd rfl hsub
  | undo groupId userId =>
    intro e he hnew hsub
    revert he
    unfold undo_last_by_user
    split
    · intro he; exact absurd he hnew
    · intro he; exact absurd (List.mem_of_mem_filter he) hnew

/-- Witness for C3: the concrete resolution of the demonstration pending
decision (chosen category "transport", predicted subcategory
"transport_taxi") yields an expense whose category is the subcategory's
taxonomy parent. -/
theorem finalized_expense_taxonomy_consistent_witness :
    SUBCATEGORY_TO_CATEGORY
        (⟨1, 1, 2, chars "transport", chars "transport_taxi", 100, chars "такси", 3,
          chars "transport", chars "transport_taxi", 71/100, false,
          chars "такси"⟩ : ExpenseRow).subcategory =
      some (⟨1, 1, 2, chars "transport", chars "transport_taxi", 100, chars "такси", 3,
          chars "transport", chars "transport_taxi", 71/100, false,
          chars "такси"⟩ : ExpenseRow).category :=
  finalized_expense_taxonomy_consistent
    (Step.callback pendingDemoDb 5 (chars "transport") 2) _ (by decide) (by decide)
    (by decide)

/-! ## C7 — the confidence formula and its range -/

lemma roundHalfEven_bounds (x : ℚ) :
    x - 1/2 ≤ (roundHalfEven x : ℚ) ∧ (roundHalfEven x : ℚ) ≤ x + 1/2 := by
  have hfl : ((⌊x⌋ : ℤ) : ℚ) ≤ x := Int.floor_le x
  have hfu : x < ((⌊x⌋ : ℤ) : ℚ) + 1 := Int.lt_floor_add_one x
  unfold roundHalfEven
  by_cases h1 : x - ⌊x⌋ < 1/2
  · rw [if_pos h1]
    constructor <;> linarith
  · rw [if_neg h1]
    rw [not_lt] at h1
    by_cases h2 : (1 : ℚ)/2 < x - ⌊x⌋
    · rw [if_pos h2]
      push_cast
      constructor <;> linarith
    · rw [if_neg h2]
      rw [not_lt] at h2
      by_cases h3 : ⌊x⌋ % 2 = 0
      · rw [if_pos h3]
        constructor <;> linarith
      · rw [if_neg h3]
        push_cast
        constructor <;> linarith

lemma round2_bounds {y : ℚ} (h1 : 2/10 ≤ y) (h2 : y ≤ 98/100) :
    2/10 ≤ round2 y ∧ round2 y ≤ 98/100 := by
  obtain ⟨hl, hu⟩ := roundHalfEven_bounds (y * 100)
  have hn20 : (20 : ℤ) ≤ roundHalfEven (y * 100) := by
    by_contra hcon
    rw [not_le] at hcon
    have h19 : (roundHalfEven (y * 100) : ℚ) ≤ 19 := by
      exact_mod_cast Int.lt_add_one_iff.mp hcon
    linarith
  have hn98 : roundHalfEven (y * 100) ≤ (98 : ℤ) := by
    by_contra hcon
    rw [not_le] at hcon
    have h99 : (99 : ℚ) ≤ (roundHalfEven (y * 100) : ℚ) := by
      exact_mod_cast hcon
    linarith
  have hq20 : (20 : ℚ) ≤ (roundHalfEven (y * 100) : ℚ) := by exact_mod_cast hn20
  have hq98 : (roundHalfEven (y * 100) : ℚ) ≤ 98 := by exact_mod_cast hn98
  unfold round2
  constructor <;> [linarith; linarith]

lemma subScore_nonneg (norm : List Char) (s : SubcategoryDef) :
    0 ≤ subScore norm s := by
  rw [subScore_eq_specScore]
  unfold specScore
  apply List.sum_nonneg
  intro q hq
  rcases List.mem_map.mp hq with ⟨w, _, rfl⟩
  have h1 : (0:ℚ) ≤ if w <:+: norm then (1:ℚ) else 0 := by split <;> norm_num
  have h2 : (0:ℚ) ≤ if norm = w ∨ w ++ [' '] <+: norm then (35:ℚ)/100 else 0 := by
    split <;> norm_num
  linarith

/-- **C7.** Every "rules" prediction's confidence equals
`clamp(0.2, 0.98, 0.55 + best*0.12 - second*0.07)` rounded to two decimals,
where `best` is the top subcategory score (it dominates every taxonomy
subcategory's score) and `second` the second-place score (0 when there is
only one candidate); consequently the confidence always lies in
`[0.2, 0.98]`. -/
theorem rules_confidence_formula (note : List Char) (p : Prediction)
    (h : predict_category note none = some p) :
    (2/10 ≤ p.confidence ∧ p.confidence ≤ 98/100) ∧
    (∀ bestKey bestScore rest,
      List.insertionSort scoreGE (scoreEntries (normalize_text note)) =
        (bestKey, bestScore) :: rest →
      (∀ s ∈ SUBCATEGORIES, subScore (normalize_text note) s ≤ bestScore) ∧
      p.confidence = round2 (max (2/10) (min (98/100)
        (55/100 + bestScore * (12/100) - secondScore rest * (7/100))))) := by
  unfold predict_category at h
  dsimp only at h
  by_cases hn : normalize_text note = []
  · rw [if_pos hn] at h; cases h
  · rw [if_neg hn] at h
    unfold rulesPredict at h
    cases hsort : List.insertionSort scoreGE (scoreEntries (normalize_text note)) with
    | nil => rw [hsort] at h; cases h
    | cons x rest =>
      rw [hsort] at h
      obtain ⟨bk, bs⟩ := x
      cases h
      refine ⟨round2_bounds (le_max_left _ _)
        (max_le (by norm_num) (min_le_left _ _)), ?_⟩
      intro bestKey bestScore rest' hsort'
      injection hsort' with hx hrest
      injection hx with hk hs
      subst hk
      subst hs
      subst hrest
      refine ⟨?_, rfl⟩
      intro s hs
      by_cases hz : subScore (normalize_text note) s = 0
      · rw [hz]
        have hmem : (bk, bs) ∈ scoreEntries (normalize_text note) :=
          (List.perm_insertionSort scoreGE _).subset (hsort ▸ List.mem_cons_self _ _)
        rcases scoreEntries_mem hmem with ⟨t, _, heq⟩
        have : 0 ≤ bs := by
          have h2 := congrArg Prod.snd heq
          simp at h2
          rw [h2]
          exact subScore_nonneg _ t
        exact this
      · have hmem : (s.key, subScore (normalize_text note) s) ∈
            scoreEntries (normalize_text note) := by
          unfold scoreEntries
          refine List.mem_filter.mpr ⟨List.mem_map.mpr ⟨s, hs, rfl⟩, by simpa using hz⟩
        have hmem' : (s.key, subScore (normalize_text note) s) ∈
            List.insertionSort scoreGE (scoreEntries (normalize_text note)) :=
          (List.perm_insertionSort scoreGE _).mem_iff.mpr hmem
        rw [hsort] at hmem'
        rcases List.mem_cons.mp hmem' with heq | htail
        · have := congrArg Prod.snd heq
          simpa using this.le
        · have hsorted : List.Sorted scoreGE
              (List.insertionSort scoreGE (scoreEntries (normalize_text note))) :=
            List.sorted_insertionSort scoreGE _
          rw [hsort] at hsorted
          exact List.rel_of_sorted_cons hsorted _ htail

/-- Witness for C7: the note exactly "такси" scores `1.35` with the
exact-match bonus and yields confidence `0.71`, inside `[0.2, 0.98]`. -/
theorem rules_confidence_formula_witness :
    predict_category (chars "такси") none =
      some ⟨chars "transport", chars "transport_taxi", 71/100, chars "rules"⟩ ∧
    subScore (normalize_text (chars "такси"))
      ⟨chars "transport_taxi", chars "Такси", chars "transport",
        [chars "такси", chars "поездка", chars "трансфер"]⟩ = 135/100 ∧
    2/10 ≤ (⟨chars "transport", chars "transport_taxi", 71/100,
        chars "rules"⟩ : Prediction).confidence ∧
    (⟨chars "transport", chars "transport_taxi", 71/100,
        chars "rules"⟩ : Prediction).confidence ≤ 98/100 :=
  ⟨by decide, by decide,
   (rules_confidence_formula (chars "такси") _ (by decide)).1.1,
   (rules_confidence_formula (chars "такси") _ (by decide)).1.2⟩

/-! ## C8 — deterministic first-declared tie-breaking -/

lemma orderedInsert_of_le {x : List Char × ℚ} {l : List (List Char × ℚ)}
    (h : ∀ y ∈ l, y.2 ≤ x.2) : List.orderedInsert scoreGE x l = x :: l := by
  cases l with
  | nil => rfl
  | cons y t =>
    have hxy : scoreGE x y := h y (List.mem_cons_self y t)
    show (if scoreGE x y then x :: y :: t else y :: List.orderedInsert scoreGE x t) =
      x :: y :: t
    rw [if_pos hxy]

lemma insertionSort_head_of_first_max (x : List Char × ℚ) (L₂ : List (List Char × ℚ)) :
    ∀ L₁ : List (List Char × ℚ), (∀ y ∈ L₁, y.2 < x.2) →
    (∀ y ∈ L₁ ++ x :: L₂, y.2 ≤ x.2) →
    ∃ rest, List.insertionSort scoreGE (L₁ ++ x :: L₂) = x :: rest := by
  intro L₁
  induction L₁ with
  | nil =>
    intro _ hle
    refine ⟨List.insertionSort scoreGE L₂, ?_⟩
    show List.orderedInsert scoreGE x (List.insertionSort scoreGE L₂) = _
    apply orderedInsert_of_le
    intro y hy
    exact hle y (List.mem_cons_of_mem x ((List.perm_insertionSort scoreGE L₂).subset hy))
  | cons z L₁ ih =>
    intro hlt hle
    obtain ⟨rest, hrest⟩ := ih
      (fun y hy => hlt y (List.mem_cons_of_mem z hy))
      (fun y hy => hle y (List.mem_cons_of_mem z hy))
    refine ⟨List.orderedInsert scoreGE z rest, ?_⟩
    show List.orderedInsert scoreGE z
      (List.insertionSort scoreGE (L₁ ++ x :: L₂)) = _
    rw [hrest]
    have hzx : ¬ scoreGE z x := not_le.mpr (hlt z (List.mem_cons_self z _))
    show (if scoreGE z x then z :: x :: rest else x :: List.orderedInsert scoreGE z rest) =
      x :: List.orderedInsert scoreGE z rest
    rw [if_neg hzx]

/-- **C8.** When several subcategories attain the top score, the prediction
deterministically selects the one declared earliest in the taxonomy: for
every decomposition `SUBCATEGORIES = S₁ ++ s :: S₂` in which `s` scores
non-zero, strictly beats everything declared before it and at least ties
everything else, while some later subcategory ties it, `predict_category`
returns `s.key` (the stable descending sort over the insertion-ordered score
structure puts the first-declared maximum at the head). -/
theorem tie_break_first_declared (note : List Char) (S₁ S₂ : List SubcategoryDef)
    (s : SubcategoryDef) (hsplit : SUBCATEGORIES = S₁ ++ s :: S₂)
    (hnorm : normalize_text note ≠ [])
    (hs0 : subScore (normalize_text note) s ≠ 0)
    (hfirst : ∀ t ∈ S₁,
      subScore (normalize_text note) t < subScore (normalize_text note) s)
    (hmax : ∀ t ∈ SUBCATEGORIES,
      subScore (normalize_text note) t ≤ subScore (normalize_text note) s)
    (_htie : ∃ t ∈ S₂,
      subScore (normalize_text note) t = subScore (normalize_text note) s) :
    ∃ p, predict_category note none = some p ∧ p.subcategory = s.key ∧
      p.reason = chars "rules" := by
  have hentries : scoreEntries (normalize_text note) =
      ((S₁.map (fun t => (t.key, subScore (normalize_text note) t))).filter
        (fun q => decide (q.2 ≠ 0))) ++
      (s.key, subScore (normalize_text note) s) ::
      ((S₂.map (fun t => (t.key, subScore (normalize_text note) t))).filter
        (fun q => decide (q.2 ≠ 0))) := by
    unfold scoreEntries
    rw [hsplit, List.map_append, List.map_cons, List.filter_append, List.filter_cons]
    simp [hs0]
  obtain ⟨rest, hrest⟩ := insertionSort_head_of_first_max
    (s.key, subScore (normalize_text note) s)
    ((S₂.map (fun t => (t.key, subScore (normalize_text note) t))).filter
      (fun q => decide (q.2 ≠ 0)))
    ((S₁.map (fun t => (t.key, subScore (normalize_text note) t))).filter
      (fun q => decide (q.2 ≠ 0)))
    (by
      intro y hy
      rcases List.mem_map.mp (List.mem_of_mem_filter hy) with ⟨t, ht, rfl⟩
      exact hfirst t ht)
    (by
      intro y hy
      rw [← hentries] at hy
      rcases scoreEntries_mem hy with ⟨t, ht, rfl⟩
      exact hmax t ht)
  rw [← hentries] at hrest
  have hpred : predict_category note none =
      some ⟨(SUBCATEGORY_TO_CATEGORY s.key).getD [], s.key,
        round2 (max (2/10) (min (98/100)
          (55/100 + subScore (normalize_text note) s * (12/100) -
            secondScore rest * (7/100)))),
        chars "rules"⟩ := by
    unfold predict_category rulesPredict
    dsimp only
    rw [if_neg hnorm, hrest]
    rfl
  exact ⟨_, hpred, rfl, rfl⟩

/-- Witness for C8: in "и кофе бензин" both `food_out` (declared first) and
`transport_car` score exactly `1.0`; the first-declared `food_out` wins. -/
theorem tie_break_first_declared_witness :
    (∃ p, predict_category (chars "и кофе бензин") none = some p ∧
      p.subcategory = SUBCATEGORIES.headI.key ∧ p.reason = chars "rules") ∧
    subScore (normalize_text (chars "и кофе бензин")) SUBCATEGORIES.headI = 1 ∧
    (∃ t ∈ SUBCATEGORIES.drop 1,
      subScore (normalize_text (chars "и кофе бензин")) t =
        subScore (normalize_text (chars "и кофе бензин")) SUBCATEGORIES.headI) :=
  ⟨tie_break_first_declared (chars "и кофе бензин") [] (SUBCATEGORIES.drop 1)
      SUBCATEGORIES.headI (by decide) (by decide) (by decide)
      (by decide) (by decide) (by decide),
   by decide, by decide⟩

/-! ## C10 — the normalizer: totality, idempotence, whitespace shape -/

lemma toNat_ofNat_valid {n : ℕ} (h : n < 55296) : (Char.ofNat n).toNat = n := by
  have hv : n.isValidChar := Or.inl h
  rw [Char.ofNat, dif_pos hv]
  simp [Char.ofNatAux, Char.toNat, UInt32.toNat, BitVec.toNat_ofNatLt]

lemma toLowerChar_space {c : Char} (h : isSpaceChar c = true) : toLowerChar c = c := by
  simp only [isSpaceChar, Bool.or_eq_true, beq_iff_eq] at h
  rcases h with ((((rfl | rfl) | rfl) | rfl) | rfl) | rfl <;> decide

lemma cleanChar_idem (c : Char) : cleanChar (cleanChar c) = cleanChar c := by
  by_cases h : isAllowedChar c = true
  · simp [cleanChar, h]
  · simp [cleanChar, h]

lemma toLowerChar_idem (c : Char) : toLowerChar (toLowerChar c) = toLowerChar c := by
  unfold toLowerChar
  by_cases h1 : 65 ≤ c.toNat ∧ c.toNat ≤ 90
  · rw [if_pos h1]
    have ht : (Char.ofNat (c.toNat + 32)).toNat = c.toNat + 32 :=
      toNat_ofNat_valid (by omega)
    rw [if_neg (by omega), if_neg (by omega), if_neg (by omega)]
  · rw [if_neg h1]
    by_cases h2 : 1040 ≤ c.toNat ∧ c.toNat ≤ 1071
    · rw [if_pos h2]
      have ht : (Char.ofNat (c.toNat + 32)).toNat = c.toNat + 32 :=
        toNat_ofNat_valid (by omega)
      rw [if_neg (by omega), if_neg (by omega), if_neg (by omega)]
    · rw [if_neg h2]
      by_cases h3 : c.toNat = 1025
      · rw [if_pos h3]
        decide
      · rw [if_neg h3, if_neg h1, if_neg h2, if_neg h3]

lemma toLowerChar_of_clean (a : Char) :
    toLowerChar (cleanChar (toLowerChar a)) = cleanChar (toLowerChar a) := by
  by_cases hal : isAllowedChar (toLowerChar a) = true
  · simp only [cleanChar, if_pos hal]
    exact toLowerChar_idem a
  · simp only [cleanChar, if_neg hal]
    decide

lemma map_id_of_fixed {f : Char → Char} : ∀ {l : List Char},
    (∀ c ∈ l, f c = c) → l.map f = l
  | [], _ => rfl
  | c :: t, h => by
    rw [List.map_cons, h c (List.mem_cons_self c t),
      map_id_of_fixed (fun d hd => h d (List.mem_cons_of_mem c hd))]

lemma stripList_all_space {l : List Char} (h : ∀ c ∈ l, isSpaceChar c = true) :
    stripList l = [] := by
  unfold stripList
  have h1 : l.dropWhile isSpaceChar = [] := List.dropWhile_eq_nil_iff.mpr h
  rw [h1]
  rfl

lemma stripList_within (l : List Char) : stripList l <:+: l :=
  (List.rdropWhile_prefix isSpaceChar (l.dropWhile isSpaceChar)).isInfix.trans
    (List.dropWhile_suffix isSpaceChar).isInfix

lemma stripList_head_not_space (l : List Char) :
    ∀ c, (stripList l).head? = some c → isSpaceChar c = false := by
  intro c hc
  rw [stripList] at hc
  obtain ⟨t, ht⟩ := List.rdropWhile_prefix isSpaceChar (l.dropWhile isSpaceChar)
  have hm : (l.dropWhile isSpaceChar).head? = some c := by
    rw [← ht, List.head?_append, hc]
    rfl
  have hspec := List.head?_dropWhile_not isSpaceChar l
  rw [hm] at hspec
  exact hspec

lemma stripList_getLast_not_space (l : List Char) :
    ∀ c, (stripList l).getLast? = some c → isSpaceChar c = false := by
  intro c hc
  have hne : (l.dropWhile isSpaceChar).rdropWhile isSpaceChar ≠ [] := by
    intro h0
    rw [stripList, h0] at hc
    cases hc
  have hlast := List.rdropWhile_last_not isSpaceChar (l.dropWhile isSpaceChar) hne
  rw [stripList, List.getLast?_eq_getLast _ hne] at hc
  injection hc with hc'
  rw [← hc']
  simpa using hlast

lemma stripList_eq_self {l : List Char}
    (hh : ∀ c, l.head? = some c → isSpaceChar c = false)
    (hl : ∀ c, l.getLast? = some c → isSpaceChar c = false) : stripList l = l := by
  unfold stripList
  have h1 : l.dropWhile isSpaceChar = l := by
    cases l with
    | nil => rfl
    | cons a t =>
      rw [List.dropWhile_cons, hh a rfl]
      simp
  rw [h1]
  refine List.rdropWhile_eq_self_iff.mpr ?_
  intro hne
  rw [hl (l.getLast hne) (List.getLast?_eq_getLast l hne)]
  simp

lemma collapseWS_cons_nonspace {d : Char} {rest : List Char}
    (hd : isSpaceChar d = false) :
    collapseWS (d :: rest) = d :: collapseWS rest := by
  cases rest with
  | nil => simp [collapseWS, hd]
  | cons e r => simp [collapseWS, hd]

lemma collapseWS_mem : ∀ {l : List Char} {c : Char}, c ∈ collapseWS l →
    c = ' ' ∨ (c ∈ l ∧ isSpaceChar c = false)
  | [], c, hc => by cases hc
  | [d], c, hc => by
    by_cases hd : isSpaceChar d = true
    · simp [collapseWS, hd] at hc
      exact Or.inl hc
    · simp [collapseWS, hd] at hc
      subst hc
      exact Or.inr ⟨List.mem_cons_self _ _, by simpa using hd⟩
  | d :: e :: r, c, hc => by
    by_cases hde : (isSpaceChar d && isSpaceChar e) = true
    · rw [collapseWS, if_pos hde] at hc
      rcases collapseWS_mem hc with h | ⟨hm, hs⟩
      · exact Or.inl h
      · exact Or.inr ⟨List.mem_cons_of_mem d hm, hs⟩
    · rw [collapseWS, if_neg hde] at hc
      rcases List.mem_cons.mp hc with heq | htail
      · by_cases hd : isSpaceChar d = true
        · rw [heq, if_pos hd]
          exact Or.inl rfl
        · rw [heq, if_neg hd]
          exact Or.inr ⟨List.mem_cons_self _ _, by simpa using hd⟩
      · rcases collapseWS_mem htail with h | ⟨hm, hs⟩
        · exact Or.inl h
        · exact Or.inr ⟨List.mem_cons_of_mem d hm, hs⟩

lemma collapseWS_chain : ∀ l : List Char, noWSRun (collapseWS l)
  | [] => List.chain'_nil
  | [d] => List.chain'_singleton _
  | d :: e :: r => by
    by_cases hde : (isSpaceChar d && isSpaceChar e) = true
    · rw [collapseWS, if_pos hde]
      exact collapseWS_chain (e :: r)
    · rw [collapseWS, if_neg hde]
      cases hd : isSpaceChar d with
      | false =>
        rw [if_neg (by simp [hd])]
        refine List.chain'_cons'.mpr ⟨fun y _ => Or.inl hd, collapseWS_chain (e :: r)⟩
      | true =>
        have he : isSpaceChar e = false := by
          cases he : isSpaceChar e
          · rfl
          · rw [hd, he] at hde
            exact absurd rfl hde
        rw [if_pos (by simp [hd]), collapseWS_cons_nonspace he]
        have hch : noWSRun (e :: collapseWS r) := by
          rw [← collapseWS_cons_nonspace he]
          exact collapseWS_chain (e :: r)
        exact List.chain'_cons'.mpr ⟨fun y hy => Or.inr (by
          rw [List.head?_cons] at hy
          injection hy with hy'
          rw [← hy']
          exact he), hch⟩

lemma collapseWS_eq_self : ∀ {l : List Char}, noWSRun l →
    (∀ c ∈ l, isSpaceChar c = true → c = ' ') → collapseWS l = l
  | [], _, _ => rfl
  | [d], _, hsp => by
    cases hd : isSpaceChar d with
    | false => simp [collapseWS, hd]
    | true =>
      simp only [collapseWS, if_pos hd]
      rw [hsp d (List.mem_cons_self _ _) hd]
  | d :: e :: r, hchain, hsp => by
    have hR := (List.chain'_cons.mp hchain).1
    have hde : (isSpaceChar d && isSpaceChar e) ≠ true := by
      rcases hR with h | h <;> simp [h]
    rw [collapseWS, if_neg hde]
    have htl : collapseWS (e :: r) = e :: r :=
      collapseWS_eq_self (List.chain'_cons.mp hchain).2
        (fun c hc hs => hsp c (List.mem_cons_of_mem d hc) hs)
    rw [htl]
    cases hd : isSpaceChar d with
    | false => rw [if_neg (by simp [hd])]
    | true =>
      rw [if_pos (by simp [hd]), hsp d (List.mem_cons_self _ _) hd]

lemma normalize_text_ws_only {x : List Char} (h : ∀ c ∈ x, isSpaceChar c = true) :
    normalize_text x = [] := by
  unfold normalize_text
  have h1 : ∀ c ∈ x.map toLowerChar, isSpaceChar c = true := by
    intro c hc
    rcases List.mem_map.mp hc with ⟨a, ha, rfl⟩
    rw [toLowerChar_space (h a ha)]
    exact h a ha
  rw [stripList_all_space h1]
  rfl

lemma normalize_text_chars {x : List Char} {c : Char} (hc : c ∈ normalize_text x) :
    toLowerChar c = c ∧ cleanChar c = c ∧ (isSpaceChar c = true → c = ' ') := by
  unfold normalize_text at hc
  have hc1 : c ∈ collapseWS ((stripList (x.map toLowerChar)).map cleanChar) :=
    (stripList_within _).sublist.subset hc
  rcases collapseWS_mem hc1 with rfl | ⟨hmem, hns⟩
  · exact ⟨by decide, by decide, fun _ => rfl⟩
  · rcases List.mem_map.mp hmem with ⟨b, hb, rfl⟩
    have hb' : b ∈ x.map toLowerChar := (stripList_within _).sublist.subset hb
    rcases List.mem_map.mp hb' with ⟨a, _, rfl⟩
    exact ⟨toLowerChar_of_clean a, cleanChar_idem _,
      fun hsp => absurd hsp (by simp [hns])⟩

lemma normalize_text_noWSRun (x : List Char) : noWSRun (normalize_text x) :=
  List.Chain'.infix (collapseWS_chain _) (stripList_within _)

lemma normalize_text_head (x : List Char) :
    ∀ c, (normalize_text x).head? = some c → isSpaceChar c = false :=
  stripList_head_not_space _

lemma normalize_text_getLast (x : List Char) :
    ∀ c, (normalize_text x).getLast? = some c → isSpaceChar c = false :=
  stripList_getLast_not_space _

/-- **C10.** `normalize_text` is a total function (it is defined for every
string, with no failure mode), idempotent, maps every whitespace-only input
to the empty string, and never returns leading, trailing or doubled
whitespace. -/
theorem normalize_text_idempotent_and_clean (x : List Char) :
    normalize_text (normalize_text x) = normalize_text x ∧
    ((∀ c ∈ x, isSpaceChar c = true) → normalize_text x = []) ∧
    (∀ c, (normalize_text x).head? = some c → isSpaceChar c = false) ∧
    (∀ c, (normalize_text x).getLast? = some c → isSpaceChar c = false) ∧
    noWSRun (normalize_text x) := by
  refine ⟨?_, normalize_text_ws_only, normalize_text_head x,
    normalize_text_getLast x, normalize_text_noWSRun x⟩
  have hstrip : stripList (normalize_text x) = normalize_text x :=
    stripList_eq_self (normalize_text_head x) (normalize_text_getLast x)
  have hlower : (normalize_text x).map toLowerChar = normalize_text x :=
    map_id_of_fixed (fun c hc => (normalize_text_chars hc).1)
  have hclean : (normalize_text x).map cleanChar = normalize_text x :=
    map_id_of_fixed (fun c hc => (normalize_text_chars hc).2.1)
  have hcoll : collapseWS (normalize_text x) = normalize_text x :=
    collapseWS_eq_self (normalize_text_noWSRun x)
      (fun c hc hs => (normalize_text_chars hc).2.2 hs)
  conv_lhs => rw [normalize_text, hlower, hstrip, hclean, hcoll, hstrip]

/-- Witness for C10: a whitespace-only input normalizes to the empty string,
and a concrete mixed input is a fixed point of a second normalization with
no doubled whitespace. -/
theorem normalize_text_idempotent_and_clean_witness :
    normalize_text (chars "   ") = [] ∧
    normalize_text (normalize_text (chars "  Кофе   и Круассан!  ")) =
      normalize_text (chars "  Кофе   и Круассан!  ") ∧
    noWSRun (normalize_text (chars "  Кофе   и Круассан!  ")) :=
  ⟨(normalize_text_idempotent_and_clean (chars "   ")).2.1 (by decide),
   (normalize_text_idempotent_and_clean (chars "  Кофе   и Круассан!  ")).1,
   (normalize_text_idempotent_and_clean (chars "  Кофе   и Круассан!  ")).2.2.2.2⟩

end FinTrack
